import Mathlib

/-!
Verification development for the `leaftlet` PDF page-reconstruction tool
(`src/ultimate_final_fix.py`).

The embedding models, over `List Char` text and rational page coordinates:

* Python `str.strip`, `str.replace`, substring containment (`in`), and the
  insertion-ordered `dict` used for the modification map;
* the regex `re.search(label + r'\s*(.+)', text)` used by `get_modifications`
  (for this fixed pattern: the leftmost occurrence of the literal `label`
  whose remainder admits a match of `\s*(.+)`, where `\s*` is greedy with
  backtracking and `.` matches every character except a newline; the
  returned value is capture group 1);
* `get_modifications`, `apply_modifications`, and the span / image drawing
  loops of `reconstruct_with_exact_positions`, together with a step trace of
  the whole run used for the resource-lifecycle claims.
-/

/-- Characters of a Lean string literal, used to write concrete Python strings. -/
def str (s : String) : List Char := s.data

/-- Python whitespace (`str.strip`, regex `\s`), restricted to ASCII. -/
def isPyWs (c : Char) : Bool :=
  c == ' ' || c == '\t' || c == '\n' || c == '\r' || c == '\x0b' || c == '\x0c'

/-- Python `str.strip()`: remove leading and trailing whitespace. -/
def pyStrip (s : List Char) : List Char :=
  ((s.dropWhile isPyWs).reverse.dropWhile isPyWs).reverse

/-- Python substring containment `pat in s` (true at some start index,
including the empty pattern). -/
def occursB (pat s : List Char) : Bool :=
  (List.range (s.length + 1)).any (fun i => pat.isPrefixOf (s.drop i))

/-- Propositional form of `occursB`. -/
def occursIn (pat s : List Char) : Prop := occursB pat s = true

instance (pat s : List Char) : Decidable (occursIn pat s) := by
  unfold occursIn
  infer_instance

/-- Auxiliary recursion of Python `str.replace` for a non-empty pattern:
scan left to right, replacing each non-overlapping occurrence and resuming
after the inserted replacement. -/
def replaceNE (old new : List Char) : List Char → List Char
  | [] => []
  | c :: rest =>
    if old.isPrefixOf (c :: rest) then new ++ replaceNE old new (rest.drop (old.length - 1))
    else c :: replaceNE old new rest
termination_by s => s.length
decreasing_by
  all_goals simp only [List.length_cons, List.length_drop]
  all_goals omega

/-- Python `s.replace(old, new)`: all non-overlapping occurrences, leftmost
first.  For the empty pattern Python inserts `new` at every character gap
(`"abc".replace("", "-") == "-a-b-c-"`). -/
def pyReplace (s old new : List Char) : List Char :=
  if old = [] then new ++ s.flatMap (fun c => c :: new)
  else replaceNE old new s

/-- The ModificationMap: an insertion-ordered association list, mirroring a
Python `dict` of strings. -/
abbrev Mods := List (List Char × List Char)

/-- Python `d[k] = v` on an insertion-ordered dict: update in place if the
key is present, otherwise append. -/
def dictInsert (m : Mods) (k v : List Char) : Mods :=
  if m.any (fun kv => decide (kv.1 = k)) then
    m.map (fun kv => if kv.1 = k then (k, v) else kv)
  else m ++ [(k, v)]

/-- Python `d.get(k)` on the ordered dict. -/
def dlookup (m : Mods) (k : List Char) : Option (List Char) :=
  (m.find? (fun kv => decide (kv.1 = k))).map (fun kv => kv.2)

/-- Source `apply_modifications(text, mappings)`: fold `str.replace` over the
map entries in insertion order. -/
def applyModifications (text : List Char) (mappings : Mods) : List Char :=
  mappings.foldl (fun t kv => pyReplace t kv.1 kv.2) text

/-- Matching `\s*(.+)` against `r` (Python `re` semantics for this suffix of
the pattern): the greedy `\s*` consumes the maximal whitespace run; if a
non-newline character follows, group 1 is the maximal newline-free run from
there; otherwise `\s*` backtracks, so the match succeeds exactly when `r`
has a non-newline character, group 1 then being the last such character
(every later character is a newline). -/
def matchRest (r : List Char) : Option (List Char) :=
  match r.dropWhile isPyWs with
  | [] =>
    match (r.filter (fun c => c != '\n')).getLast? with
    | some c => some [c]
    | none => none
  | c :: t => some ((c :: t).takeWhile (fun d => d != '\n'))

/-- Python `re.search(label + r'\s*(.+)', text).group(1)` for a literal
`label`: the match starts at the leftmost occurrence of `label` whose
remainder admits `\s*(.+)`. -/
def reSearchValue (label text : List Char) : Option (List Char) :=
  (List.range (text.length + 1)).findSome? (fun i =>
    if label.isPrefixOf (text.drop i) then matchRest (text.drop (i + label.length)) else none)

/-- Original sample address replaced by `get_modifications`. -/
def ORIG_ADDRESS : List Char := str "123 Sample Street, Example City, EX 12345"

/-- Original sample phone number replaced by `get_modifications`. -/
def ORIG_PHONE : List Char := str "(555) 123-4567"

/-- Original sample e-mail replaced by `get_modifications`. -/
def ORIG_EMAIL : List Char := str "contact@example.com"

/-- Placeholder phrase checked by `get_modifications`. -/
def LOREM : List Char := str "Lorem ipsum"

/-- Substitute phrase checked by `get_modifications`. -/
def SAMPLE_TEXT : List Char := str "Sample text"

/-- The label of each recognized field paired with the known original sample
value its new value is mapped from. -/
def fieldTable : List (List Char × List Char) :=
  [(str "Address:", ORIG_ADDRESS), (str "Phone:", ORIG_PHONE), (str "Email:", ORIG_EMAIL)]

/-- The three field keys `get_modifications` can insert from labeled records. -/
def threeKeys : List (List Char) := [ORIG_ADDRESS, ORIG_PHONE, ORIG_EMAIL]

/-- All keys `get_modifications` can ever insert. -/
def keyUniverse : List (List Char) := [ORIG_ADDRESS, ORIG_PHONE, ORIG_EMAIL, LOREM]

/-- Body of the paragraph loop of `get_modifications`: strip the paragraph
text, test the three labels by substring containment in `if` / `elif` order,
and on a regex match insert the stripped capture under the field's known
original value. -/
def processParagraph (m : Mods) (ptext : List Char) : Mods :=
  let text := pyStrip ptext
  if occursB (str "Address:") text then
    match reSearchValue (str "Address:") text with
    | some g => dictInsert m ORIG_ADDRESS (pyStrip g)
    | none => m
  else if occursB (str "Phone:") text then
    match reSearchValue (str "Phone:") text with
    | some g => dictInsert m ORIG_PHONE (pyStrip g)
    | none => m
  else if occursB (str "Email:") text then
    match reSearchValue (str "Email:") text with
    | some g => dictInsert m ORIG_EMAIL (pyStrip g)
    | none => m
  else m

/-- The single insertion (if any) a paragraph record causes: the field's
known original value paired with the recognized new value. -/
def recognizeField (ptext : List Char) : Option (List Char × List Char) :=
  let text := pyStrip ptext
  if occursB (str "Address:") text then
    (reSearchValue (str "Address:") text).map (fun g => (ORIG_ADDRESS, pyStrip g))
  else if occursB (str "Phone:") text then
    (reSearchValue (str "Phone:") text).map (fun g => (ORIG_PHONE, pyStrip g))
  else if occursB (str "Email:") text then
    (reSearchValue (str "Email:") text).map (fun g => (ORIG_EMAIL, pyStrip g))
  else none

/-- Source `get_modifications()`, with the companion document abstracted to
its ordered list of paragraph texts: run the labeled-field loop, then add
`"Lorem ipsum" -> "Sample text"` when the substitute phrase occurs in the
space-joined document text and the placeholder phrase does not. -/
def get_modifications (paragraphs : List (List Char)) : Mods :=
  let m := paragraphs.foldl processParagraph []
  let modified_text := List.intercalate (str " ") paragraphs
  if occursB SAMPLE_TEXT modified_text && !occursB LOREM modified_text then
    dictInsert m LOREM SAMPLE_TEXT
  else m

/-- A `fitz.Rect` (x0, y0, x1, y1). -/
structure Rect where
  x0 : ℚ
  y0 : ℚ
  x1 : ℚ
  y1 : ℚ
deriving DecidableEq

/-- `Rect.tl`: the top-left point of a rectangle. -/
def Rect.tl (r : Rect) : ℚ × ℚ := (r.x0, r.y0)

/-- One text span of the extracted page dictionary: text, bbox, font
descriptor, size, integer color value. -/
structure Span where
  text : List Char
  bbox : Rect
  font : List Char
  size : ℚ
  color : Nat
deriving DecidableEq

/-- One line of a text block. -/
structure Line where
  spans : List Span
deriving DecidableEq

/-- One block of the page dictionary; `lines` is `none` for a non-text block
(the Python code tests `"lines" in block`). -/
structure Block where
  lines : Option (List Line)
deriving DecidableEq

/-- The extracted source page. -/
structure Page where
  width : ℚ
  height : ℚ
  blocks : List Block
deriving DecidableEq

/-- One `insert_text` call on the output page. -/
structure TextDraw where
  pos : ℚ × ℚ
  text : List Char
  fontname : String
  fontsize : ℚ
  color : ℚ × ℚ × ℚ
deriving DecidableEq

/-- Font mapping of the span loop: a descriptor containing `"Bold"` maps to
`helvetica-bold`, else one containing `"Oblique"` maps to
`helvetica-oblique`, else `helvetica`. -/
def mapFont (fontName : List Char) : String :=
  if occursB (str "Bold") fontName then "helvetica-bold"
  else if occursB (str "Oblique") fontName then "helvetica-oblique"
  else "helvetica"

/-- Color mapping of the span loop: integer color 139 maps to the dark-blue
triple `(0, 0, 139/255)`, every other value to black. -/
def mapColor (color : Nat) : ℚ × ℚ × ℚ :=
  if color = 139 then (0, 0, 139 / 255) else (0, 0, 0)

/-- Body of the span loop: skip a span whose text strips to empty, otherwise
emit one `insert_text` at the exact original `rect.tl` with the substituted
text, mapped font, original size and mapped color. -/
def spanDraw (mappings : Mods) (s : Span) : Option TextDraw :=
  if pyStrip s.text = [] then none
  else some { pos := s.bbox.tl, text := applyModifications s.text mappings,
              fontname := mapFont s.font, fontsize := s.size, color := mapColor s.color }

/-- All spans of the page in block / line / span order; non-text blocks
contribute nothing. -/
def allSpans (p : Page) : List Span :=
  p.blocks.flatMap (fun b =>
    match b.lines with
    | none => []
    | some ls => ls.flatMap (fun l => l.spans))

/-- The ordered `insert_text` calls the reconstruction performs for a page. -/
def drawsOfPage (mappings : Mods) (p : Page) : List TextDraw :=
  p.blocks.flatMap (fun b =>
    match b.lines with
    | none => []
    | some ls => ls.flatMap (fun l => l.spans.filterMap (spanDraw mappings)))

/-- Image-copy loop of `reconstruct_with_exact_positions`: for each entry of
`get_images`, call `extract_image` once and `insert_image` the extracted
bytes at every rectangle reported by `get_image_rects`.  Returns the trace
of `extract_image` calls and the list of `insert_image` calls
(rectangle, bytes). -/
def copyImages (imgs : List Nat) (extract : Nat → List Nat) (rects : Nat → List Rect) :
    List Nat × List (Rect × List Nat) :=
  imgs.foldl
    (fun acc x =>
      let bytes := extract x
      (acc.1 ++ [x], acc.2 ++ (rects x).map (fun r => (r, bytes))))
    ([], [])

/-- Which externally fallible steps of a reconstruction run succeed. -/
structure RunEnv where
  modsOk : Bool
  openOk : Bool
  extractOk : Bool
  drawOk : Bool
  imagesOk : Bool
  saveOk : Bool
deriving DecidableEq, Fintype

/-- The externally visible operations of a reconstruction run. -/
inductive Op where
  | getMods
  | openOriginal
  | openNew
  | getText
  | drawText
  | drawImages
  | save
  | closeOriginal
  | closeNew
deriving DecidableEq

/-- The operations `reconstruct_with_exact_positions` completes, in source
order; a failing step raises, so every later operation (including the two
`close()` calls at the end of the function body) is skipped. -/
def runOps (env : RunEnv) : List Op :=
  if !env.modsOk then [] else
  Op.getMods ::
  (if !env.openOk then [] else
   Op.openOriginal :: Op.openNew ::
   (if !env.extractOk then [] else
    Op.getText ::
    (if !env.drawOk then [] else
     Op.drawText ::
     (if !env.imagesOk then [] else
      Op.drawImages ::
      (if !env.saveOk then [] else
       [Op.save, Op.closeOriginal, Op.closeNew])))))

/-- A run succeeds iff every fallible step succeeds. -/
def runSuccess (env : RunEnv) : Bool :=
  env.modsOk && env.openOk && env.extractOk && env.drawOk && env.imagesOk && env.saveOk

/-- A page whose only span is a single space, used to exhibit the handling
of blank spans. -/
def pageWithBlankSpan : Page :=
  { width := 612, height := 792,
    blocks := [{ lines := some [{ spans := [{ text := str " ", bbox := ⟨50, 50, 60, 70⟩,
                                              font := str "Helvetica", size := 12, color := 0 }] }] }] }

/-! Helper lemmas about substring occurrence and `pyReplace`. -/

theorem isPrefixOf_append_self : ∀ (l t : List Char), l.isPrefixOf (l ++ t) = true := by
  intro l t
  induction l with
  | nil => simp
  | cons c cs ih => simp [List.isPrefixOf, ih]

theorem occursB_nil_pat (s : List Char) : occursB [] s = true := by
  unfold occursB
  rw [List.any_eq_true]
  exact ⟨0, List.mem_range.mpr (Nat.succ_pos _), by simp⟩

theorem occursB_cons (pat : List Char) (c : Char) (rest : List Char) :
    occursB pat (c :: rest) = (pat.isPrefixOf (c :: rest) || occursB pat rest) := by
  unfold occursB
  rw [List.length_cons, List.range_succ_eq_map]
  simp [List.any_cons, List.any_map, Function.comp_def, List.drop_succ_cons, Nat.succ_eq_add_one]

theorem replaceNE_of_not_occurs (old new : List Char) :
    ∀ (s : List Char), occursB old s = false → replaceNE old new s = s := by
  intro s
  induction s with
  | nil => intro _; simp [replaceNE]
  | cons c rest ih =>
    intro h
    rw [occursB_cons] at h
    have h1 := Bool.or_eq_false_iff.mp h
    simp only [replaceNE]
    simp [h1.1, ih h1.2]

theorem pyReplace_of_not_occurs (old new s : List Char) (h : ¬ occursIn old s) :
    pyReplace s old new = s := by
  have ho : old ≠ [] := by
    intro hnil
    exact h (by rw [hnil]; exact occursB_nil_pat s)
  unfold pyReplace
  rw [if_neg ho]
  exact replaceNE_of_not_occurs old new s (Bool.eq_false_iff.mpr h)

theorem replaceNE_leftmost (old new : List Char) (ho : old ≠ []) :
    ∀ (a b : List Char),
      (∀ i, i < a.length → old.isPrefixOf ((a ++ old ++ b).drop i) = false) →
      replaceNE old new (a ++ old ++ b) = a ++ new ++ replaceNE old new b := by
  intro a
  induction a with
  | nil =>
    intro b _
    obtain ⟨o, os, rfl⟩ := List.exists_cons_of_ne_nil ho
    simp only [List.nil_append, List.cons_append]
    have hpre : (o :: os).isPrefixOf (o :: (os ++ b)) = true := isPrefixOf_append_self (o :: os) b
    simp only [replaceNE]
    simp [hpre, List.drop_left]
  | cons c a' ih =>
    intro b hno
    have h0 : old.isPrefixOf (c :: (a' ++ old ++ b)) = false := by
      have := hno 0 (by simp)
      simpa using this
    simp only [List.cons_append]
    simp only [replaceNE]
    rw [h0]
    simp only [Bool.false_eq_true, if_false]
    have hno' : ∀ i, i < a'.length → old.isPrefixOf ((a' ++ old ++ b).drop i) = false := by
      intro i hi
      have := hno (i + 1) (by simp; omega)
      simpa [List.drop_succ_cons] using this
    simpa [List.append_assoc] using ih b hno'

theorem pyReplace_leftmost (old new : List Char) (a b : List Char) (ho : old ≠ [])
    (h : ∀ i, i < a.length → old.isPrefixOf ((a ++ old ++ b).drop i) = false) :
    pyReplace (a ++ old ++ b) old new = a ++ new ++ pyReplace b old new := by
  unfold pyReplace
  rw [if_neg ho, if_neg ho]
  exact replaceNE_leftmost old new ho a b h

theorem applyModifications_nil (text : List Char) : applyModifications text [] = text := rfl

theorem applyModifications_append1 (text : List Char) (m : Mods) (kv : List Char × List Char) :
    applyModifications text (m ++ [kv]) = pyReplace (applyModifications text m) kv.1 kv.2 := by
  unfold applyModifications
  rw [List.foldl_append]
  rfl

theorem applyModifications_id (text : List Char) :
    ∀ (m : Mods), (∀ kv ∈ m, ¬ occursIn kv.1 text) → applyModifications text m = text := by
  intro m
  induction m with
  | nil => intro _; rfl
  | cons kv rest ih =>
    intro h
    have h1 : ¬ occursIn kv.1 text := h kv (by simp)
    have hstep : pyReplace text kv.1 kv.2 = text := pyReplace_of_not_occurs kv.1 kv.2 text h1
    show applyModifications (pyReplace text kv.1 kv.2) rest = text
    rw [hstep]
    exact ih (fun kv' hkv' => h kv' (by simp [hkv']))

/-- C1: `apply_modifications` processes the map entries sequentially in
insertion order — a later key is matched against the output of all earlier
replacements — and each step has Python `str.replace` semantics: text
without an occurrence of the key is left unchanged, and a text decomposing
as `a ++ old ++ b` with no occurrence of `old` starting inside `a` rewrites
to `a ++ new` and continues on `b` only (every non-overlapping occurrence,
leftmost first).  If no key occurs in the text, the text is returned
unchanged. -/
theorem apply_modifications_sequential_replacement (text : List Char) (mappings : Mods)
    (kv : List Char × List Char) :
    (applyModifications text (mappings ++ [kv]) =
       pyReplace (applyModifications text mappings) kv.1 kv.2) ∧
    (∀ old new s, ¬ occursIn old s → pyReplace s old new = s) ∧
    (∀ old new a b, old ≠ [] →
       (∀ i, i < a.length → old.isPrefixOf ((a ++ old ++ b).drop i) = false) →
       pyReplace (a ++ old ++ b) old new = a ++ new ++ pyReplace b old new) ∧
    ((∀ p ∈ mappings, ¬ occursIn p.1 text) → applyModifications text mappings = text) := by
  refine ⟨applyModifications_append1 text mappings kv, ?_, ?_, applyModifications_id text mappings⟩
  · intro old new s h
    exact pyReplace_of_not_occurs old new s h
  · intro old new a b ho h
    exact pyReplace_leftmost old new a b ho h

/-- Witness for C1: the key "xyz" does not occur in "hello world", so the
map leaves the text unchanged. -/
theorem apply_modifications_sequential_replacement_witness :
    applyModifications (str "hello world") [(str "xyz", str "ab")] = str "hello world" :=
  (apply_modifications_sequential_replacement (str "hello world") [(str "xyz", str "ab")]
    (str "q", str "r")).2.2.2 (by decide)

/-- C5 counterexample: the descriptor "Helvetica-BoldOblique" contains
"Oblique", yet the resolver yields bold, not oblique, so the claim's rule
"a descriptor containing Oblique maps to oblique" fails on it. -/
theorem font_resolver_counterexample :
    occursIn (str "Oblique") (str "Helvetica-BoldOblique") ∧
    mapFont (str "Helvetica-BoldOblique") = "helvetica-bold" ∧
    mapFont (str "Helvetica-BoldOblique") ≠ "helvetica-oblique" := by
  refine ⟨by decide, by decide, by decide⟩

/-- C5 amended: "Bold" takes precedence — a descriptor containing "Bold"
maps to bold even when it also contains "Oblique"; a descriptor containing
"Oblique" but not "Bold" maps to oblique; one containing neither maps to
regular.  The resolver therefore yields exactly one of the three outputs. -/
theorem font_resolver_amended (f : List Char) :
    (occursIn (str "Bold") f → mapFont f = "helvetica-bold") ∧
    (¬ occursIn (str "Bold") f → occursIn (str "Oblique") f → mapFont f = "helvetica-oblique") ∧
    (¬ occursIn (str "Bold") f → ¬ occursIn (str "Oblique") f → mapFont f = "helvetica") := by
  refine ⟨fun h => ?_, fun h1 h2 => ?_, fun h1 h2 => ?_⟩
  · unfold mapFont
    rw [if_pos (show occursB (str "Bold") f = true from h)]
  · unfold mapFont
    rw [if_neg (show ¬ occursB (str "Bold") f = true from h1),
        if_pos (show occursB (str "Oblique") f = true from h2)]
  · unfold mapFont
    rw [if_neg (show ¬ occursB (str "Bold") f = true from h1),
        if_neg (show ¬ occursB (str "Oblique") f = true from h2)]

/-- Witness for the amended C5: a purely oblique descriptor resolves to
oblique. -/
theorem font_resolver_amended_witness :
    mapFont (str "Helvetica-Oblique") = "helvetica-oblique" :=
  (font_resolver_amended (str "Helvetica-Oblique")).2.1 (by decide) (by decide)

/-- C6: the color resolver maps the sentinel value 139 to the fixed
dark-blue triple (0, 0, 139/255) and every other color value to black. -/
theorem color_resolver_spec (c : Nat) :
    (c = 139 → mapColor c = (0, 0, (139 : ℚ) / 255)) ∧
    (c ≠ 139 → mapColor c = (0, 0, 0)) := by
  constructor
  · intro h
    simp [mapColor, h]
  · intro h
    simp [mapColor, h]

/-- Witness for C6 at the sentinel and at one other value. -/
theorem color_resolver_spec_witness :
    mapColor 139 = (0, 0, (139 : ℚ) / 255) ∧ mapColor 0 = (0, 0, 0) :=
  ⟨(color_resolver_spec 139).1 rfl, (color_resolver_spec 0).2 (by decide)⟩

/-- C7 counterexample: when every step succeeds except persistence (the
`save` call fails), the run opened both documents but reaches neither
`close()` call — the handles are not released on this failure exit path. -/
theorem handle_release_counterexample :
    Op.openOriginal ∈ runOps ⟨true, true, true, true, true, false⟩ ∧
    Op.openNew ∈ runOps ⟨true, true, true, true, true, false⟩ ∧
    Op.closeOriginal ∉ runOps ⟨true, true, true, true, true, false⟩ ∧
    Op.closeNew ∉ runOps ⟨true, true, true, true, true, false⟩ := by decide

/-- C7 amended: the two `close()` calls are the last statements of the
straight-line function body, so both handles are released exactly on the
fully successful run; on every failing exit path neither handle is
released. -/
theorem handle_release_amended (env : RunEnv) :
    (runSuccess env = true → Op.closeOriginal ∈ runOps env ∧ Op.closeNew ∈ runOps env) ∧
    (runSuccess env = false → Op.closeOriginal ∉ runOps env ∧ Op.closeNew ∉ runOps env) := by
  revert env
  decide

/-- Witness for the amended C7: the fully successful run releases both
handles. -/
theorem handle_release_amended_witness :
    Op.closeOriginal ∈ runOps ⟨true, true, true, true, true, true⟩ ∧
    Op.closeNew ∈ runOps ⟨true, true, true, true, true, true⟩ :=
  (handle_release_amended ⟨true, true, true, true, true, true⟩).1 rfl

/-! Helper lemmas for the span and image loops. -/

theorem flatMap_filterMap_comm {α β γ : Type} (l : List α) (f : α → List β) (g : β → Option γ) :
    l.flatMap (fun x => (f x).filterMap g) = (l.flatMap f).filterMap g := by
  induction l with
  | nil => rfl
  | cons x xs ih => simp only [List.flatMap_cons, List.filterMap_append, ih]

theorem drawsOfPage_eq_filterMap (mappings : Mods) (p : Page) :
    drawsOfPage mappings p = (allSpans p).filterMap (spanDraw mappings) := by
  unfold drawsOfPage allSpans
  rw [← flatMap_filterMap_comm]
  congr 1
  funext b
  cases hb : b.lines with
  | none => rfl
  | some ls => exact flatMap_filterMap_comm ls (fun l => l.spans) (spanDraw mappings)

theorem filterMap_spanDraw_empty (l : List Span) :
    (l.filterMap (spanDraw [])).map (fun d => (d.text, d.pos)) =
      (l.filter (fun s => !decide (pyStrip s.text = []))).map
        (fun s => (s.text, (s.bbox.x0, s.bbox.y0))) := by
  induction l with
  | nil => rfl
  | cons s ss ih =>
    by_cases h : pyStrip s.text = []
    · simp [List.filterMap_cons, List.filter_cons, spanDraw, h, ih]
    · simp [List.filterMap_cons, List.filter_cons, spanDraw, h, ih, Rect.tl, applyModifications_nil]

theorem copyImages_foldl (extract : Nat → List Nat) (rects : Nat → List Rect) :
    ∀ (imgs : List Nat) (t : List Nat) (d : List (Rect × List Nat)),
      imgs.foldl
          (fun acc x => (acc.1 ++ [x], acc.2 ++ (rects x).map (fun r => (r, extract x)))) (t, d) =
        (t ++ imgs, d ++ imgs.flatMap (fun x => (rects x).map (fun r => (r, extract x)))) := by
  intro imgs
  induction imgs with
  | nil =>
    intro t d
    simp
  | cons x xs ih =>
    intro t d
    simp [List.flatMap_cons, ih, List.append_assoc]

/-- C3: for every span of the source page, a span whose text is blank after
trimming produces no draw, and every other span produces exactly one draw,
anchored at the span's original bounding-box top-left (x0, y0) — the bbox
is passed through verbatim, never recomputed — carrying the substituted
text (whatever its length), the resolved font and the resolved color. -/
theorem reconstructor_draws_at_topleft (mappings : Mods) (p : Page) :
    drawsOfPage mappings p = (allSpans p).filterMap (fun s =>
      if pyStrip s.text = [] then none
      else some { pos := (s.bbox.x0, s.bbox.y0),
                  text := applyModifications s.text mappings,
                  fontname := mapFont s.font, fontsize := s.size,
                  color := mapColor s.color }) :=
  drawsOfPage_eq_filterMap mappings p

/-- C9 counterexample: on a page whose only span is the single space " ",
reconstruction with the empty ModificationMap draws nothing — the blank
span is dropped — so the output spans are not identical to the source's. -/
theorem empty_map_identity_counterexample :
    drawsOfPage [] pageWithBlankSpan = [] ∧
    (drawsOfPage [] pageWithBlankSpan).map (fun d => d.text) ≠
      (allSpans pageWithBlankSpan).map (fun s => s.text) := by
  constructor
  · decide
  · decide

/-- C9 amended: substitution with the empty ModificationMap is the identity
on every span text, and reconstruction then draws exactly the non-blank
spans, each with its original text anchored at its original bounding-box
top-left; blank (whitespace-only) spans are omitted. -/
theorem empty_map_identity_amended (p : Page) :
    (∀ t : List Char, applyModifications t [] = t) ∧
    (drawsOfPage [] p).map (fun d => (d.text, d.pos)) =
      ((allSpans p).filter (fun s => !decide (pyStrip s.text = []))).map
        (fun s => (s.text, (s.bbox.x0, s.bbox.y0))) := by
  refine ⟨fun t => rfl, ?_⟩
  rw [drawsOfPage_eq_filterMap]
  exact filterMap_spanDraw_empty (allSpans p)

/-- C2: the image loop extracts each listed image's bytes exactly once (the
extraction trace is the image list itself, duplicate free by hypothesis),
and draws those byte-identical bytes at every rectangle recorded for that
image, so the draw list is exactly the source placements paired with the
extracted bytes and the number of draws equals the total number of
placements. -/
theorem image_copier_spec (imgs : List Nat) (extract : Nat → List Nat)
    (rects : Nat → List Rect) (h : imgs.Nodup) :
    (copyImages imgs extract rects).1 = imgs ∧
    (∀ x ∈ imgs, (copyImages imgs extract rects).1.count x = 1) ∧
    (copyImages imgs extract rects).2 =
      imgs.flatMap (fun x => (rects x).map (fun r => (r, extract x))) ∧
    (copyImages imgs extract rects).2.length =
      (imgs.map (fun x => (rects x).length)).sum := by
  have hfold : copyImages imgs extract rects =
      (imgs, imgs.flatMap (fun x => (rects x).map (fun r => (r, extract x)))) := by
    show imgs.foldl _ ([], []) = _
    rw [copyImages_foldl]
    simp
  refine ⟨by rw [hfold], ?_, by rw [hfold], ?_⟩
  · intro x hx
    rw [hfold]
    exact List.count_eq_one_of_mem h hx
  · rw [hfold]
    simp [List.length_flatMap, Function.comp_def]

/-- Witness for C2 with two distinct images, one rectangle each. -/
theorem image_copier_spec_witness :
    (copyImages [7, 9] (fun x => [x, x + 1]) (fun _ => [⟨0, 0, 2, 2⟩])).1 = [7, 9] :=
  (image_copier_spec [7, 9] (fun x => [x, x + 1]) (fun _ => [⟨0, 0, 2, 2⟩]) (by decide)).1

/-! Helper lemmas about the ordered dict. -/

theorem mem_dictInsert (m : Mods) (k v : List Char) (kv : List Char × List Char)
    (h : kv ∈ dictInsert m k v) : kv = (k, v) ∨ kv ∈ m := by
  unfold dictInsert at h
  by_cases ha : m.any (fun kv => decide (kv.1 = k)) = true
  · rw [if_pos ha] at h
    obtain ⟨p, hp, hfp⟩ := List.mem_map.mp h
    by_cases hk : p.1 = k
    · left
      rw [if_pos hk] at hfp
      exact hfp.symm
    · right
      rw [if_neg hk] at hfp
      rw [← hfp]
      exact hp
  · rw [if_neg ha] at h
    rcases List.mem_append.mp h with hm | hs
    · right
      exact hm
    · left
      simpa using hs

theorem dictInsert_of_fresh (m : Mods) (k v : List Char)
    (h : ∀ kv ∈ m, kv.1 ≠ k) : dictInsert m k v = m ++ [(k, v)] := by
  unfold dictInsert
  rw [if_neg]
  rw [List.any_eq_true]
  rintro ⟨kv, hkv, hdec⟩
  exact h kv hkv (of_decide_eq_true hdec)

theorem find?_update_of_any (k v : List Char) :
    ∀ (m : Mods), m.any (fun kv => decide (kv.1 = k)) = true →
      (m.map (fun kv => if kv.1 = k then (k, v) else kv)).find?
        (fun kv => decide (kv.1 = k)) = some (k, v) := by
  intro m
  induction m with
  | nil => intro h; cases h
  | cons p ps ih =>
    intro h
    rw [List.map_cons]
    by_cases hk : p.1 = k
    · rw [if_pos hk]
      exact List.find?_cons_of_pos _ (by simp)
    · rw [if_neg hk]
      rw [List.find?_cons_of_neg _ (by simp [hk])]
      apply ih
      rw [List.any_cons] at h
      simpa [hk] using h

theorem find?_append_fresh (k v : List Char) :
    ∀ (m : Mods), m.any (fun kv => decide (kv.1 = k)) = false →
      (m ++ [(k, v)]).find? (fun kv => decide (kv.1 = k)) = some (k, v) := by
  intro m
  induction m with
  | nil =>
    intro _
    rw [List.nil_append]
    exact List.find?_cons_of_pos _ (by simp)
  | cons p ps ih =>
    intro h
    rw [List.any_cons] at h
    have h2 := Bool.or_eq_false_iff.mp h
    rw [List.cons_append]
    rw [List.find?_cons_of_neg _ (by simp [of_decide_eq_false h2.1])]
    exact ih h2.2

theorem dlookup_dictInsert_self (m : Mods) (k v : List Char) :
    dlookup (dictInsert m k v) k = some v := by
  unfold dictInsert dlookup
  by_cases ha : m.any (fun kv => decide (kv.1 = k)) = true
  · rw [if_pos ha, find?_update_of_any k v m ha]
    rfl
  · rw [if_neg ha, find?_append_fresh k v m (Bool.eq_false_iff.mpr ha)]
    rfl

theorem dlookup_dictInsert_other (k k' v : List Char) (hne : k' ≠ k) (m : Mods) :
    dlookup (dictInsert m k' v) k = dlookup m k := by
  unfold dictInsert
  by_cases ha : m.any (fun kv => decide (kv.1 = k')) = true
  · rw [if_pos ha]
    unfold dlookup
    rw [List.find?_map]
    have hpred : ((fun kv : List Char × List Char => decide (kv.1 = k)) ∘
        (fun kv : List Char × List Char => if kv.1 = k' then (k', v) else kv)) =
        (fun kv : List Char × List Char => decide (kv.1 = k)) := by
      funext kv
      by_cases hk : kv.1 = k'
      · simp [Function.comp_apply, hk, hne]
      · simp [Function.comp_apply, hk]
    rw [hpred]
    cases hf : m.find? (fun kv => decide (kv.1 = k)) with
    | none => simp
    | some p =>
      have hp : p.1 = k := by
        have := List.find?_some hf
        simpa using this
      simp only [Option.map_some']
      rw [if_neg (by rw [hp]; exact fun hc => hne hc.symm)]
  · rw [if_neg ha]
    unfold dlookup
    rw [List.find?_append]
    cases hf : m.find? (fun kv => decide (kv.1 = k)) with
    | none =>
      simp only [Option.none_or]
      rw [List.find?_cons_of_neg _ (by simp; exact fun hc => hne hc)]
      simp
    | some p => simp

theorem keys_dictInsert_nodup (m : Mods) (k v : List Char)
    (h : (m.map Prod.fst).Nodup) : ((dictInsert m k v).map Prod.fst).Nodup := by
  unfold dictInsert
  by_cases ha : m.any (fun kv => decide (kv.1 = k)) = true
  · rw [if_pos ha]
    rw [List.map_map]
    have hfun : (Prod.fst ∘ fun kv : List Char × List Char =>
        if kv.1 = k then (k, v) else kv) = Prod.fst := by
      funext kv
      by_cases hk : kv.1 = k
      · simp [hk]
      · simp [hk]
    rw [hfun]
    exact h
  · rw [if_neg ha]
    rw [List.map_append]
    refine List.Nodup.append h (List.nodup_singleton _) ?_
    intro x hx hxk
    rw [List.map_singleton, List.mem_singleton] at hxk
    subst hxk
    obtain ⟨kv, hkv, hfst⟩ := List.mem_map.mp hx
    exact ha (List.any_eq_true.mpr ⟨kv, hkv, by simp [hfst]⟩)

/-! Helper lemmas about `pyStrip` and the regex model. -/

theorem dropWhile_head_not (p : Char → Bool) :
    ∀ (l : List Char) (c : Char) (t : List Char), l.dropWhile p = c :: t → p c = false := by
  intro l
  induction l with
  | nil =>
    intro c t h
    cases h
  | cons x xs ih =>
    intro c t h
    rw [List.dropWhile_cons] at h
    by_cases hx : p x = true
    · rw [if_pos hx] at h
      exact ih c t h
    · rw [if_neg hx] at h
      injection h with h1 _
      rw [← h1]
      exact Bool.eq_false_iff.mpr hx

theorem pyStrip_getLast_not_ws (s : List Char) :
    ∀ c, (pyStrip s).getLast? = some c → isPyWs c = false := by
  intro c hc
  unfold pyStrip at hc
  rw [List.getLast?_reverse] at hc
  cases hd : (s.dropWhile isPyWs).reverse.dropWhile isPyWs with
  | nil =>
    rw [hd] at hc
    cases hc
  | cons x t =>
    rw [hd] at hc
    simp only [List.head?_cons, Option.some.injEq] at hc
    rw [← hc]
    exact dropWhile_head_not isPyWs _ x t hd

theorem getLast?_drop_of_ne_nil (l : List Char) (n : Nat) (h : l.drop n ≠ []) :
    (l.drop n).getLast? = l.getLast? := by
  conv_rhs => rw [← List.take_append_drop n l]
  rw [List.getLast?_append]
  cases hb : (l.drop n).getLast? with
  | none => exact absurd (List.getLast?_eq_none_iff.mp hb) h
  | some c => simp

theorem matchRest_head_not_ws (r g : List Char)
    (hlast : ∀ c, r.getLast? = some c → isPyWs c = false)
    (h : matchRest r = some g) :
    ∃ c t, g = c :: t ∧ isPyWs c = false := by
  unfold matchRest at h
  cases hd : r.dropWhile isPyWs with
  | nil =>
    simp only [hd] at h
    by_cases hr : r = []
    · subst hr
      simp at h
    · exfalso
      obtain ⟨c, hc⟩ : ∃ c, r.getLast? = some c := by
        cases hgl : r.getLast? with
        | none => exact absurd (List.getLast?_eq_none_iff.mp hgl) hr
        | some c => exact ⟨c, rfl⟩
      have hmem : c ∈ r := List.mem_of_getLast?_eq_some hc
      have hws : isPyWs c = true := List.dropWhile_eq_nil_iff.mp hd c hmem
      rw [hlast c hc] at hws
      cases hws
  | cons c t =>
    simp only [hd] at h
    have hcw : isPyWs c = false := dropWhile_head_not isPyWs r c t hd
    have hcn : (c != '\n') = true := by
      rw [bne_iff_ne]
      intro hceq
      rw [hceq] at hcw
      simp [isPyWs] at hcw
    rw [List.takeWhile_cons, if_pos hcn] at h
    injection h with h1
    exact ⟨c, _, h1.symm, hcw⟩

theorem reSearchValue_strip_ne_nil (lbl s g : List Char)
    (hlast : ∀ c, s.getLast? = some c → isPyWs c = false)
    (h : reSearchValue lbl s = some g) :
    pyStrip g ≠ [] := by
  unfold reSearchValue at h
  obtain ⟨i, _, hfi⟩ := List.exists_of_findSome?_eq_some h
  by_cases hp : lbl.isPrefixOf (s.drop i) = true
  · rw [if_pos hp] at hfi
    have hrlast : ∀ c, (s.drop (i + lbl.length)).getLast? = some c → isPyWs c = false := by
      intro c hc
      have hrne : s.drop (i + lbl.length) ≠ [] := by
        intro hn
        rw [hn] at hc
        cases hc
      rw [getLast?_drop_of_ne_nil s (i + lbl.length) hrne] at hc
      exact hlast c hc
    obtain ⟨c, t, hg, hc⟩ := matchRest_head_not_ws _ g hrlast hfi
    subst hg
    unfold pyStrip
    intro hnil
    rw [List.reverse_eq_nil_iff] at hnil
    have hall := List.dropWhile_eq_nil_iff.mp hnil
    have hdw : (c :: t).dropWhile isPyWs = c :: t := by
      rw [List.dropWhile_cons, if_neg (by simp [hc])]
    have hcmem : c ∈ ((c :: t).dropWhile isPyWs).reverse := by
      rw [hdw]
      simp
    have hcw := hall c hcmem
    rw [hc] at hcw
    cases hcw
  · rw [if_neg hp] at hfi
    cases hfi

/-! Characterization of the paragraph loop. -/

theorem processParagraph_eq (m : Mods) (p : List Char) :
    processParagraph m p =
      match recognizeField p with
      | some kv => dictInsert m kv.1 kv.2
      | none => m := by
  simp only [processParagraph, recognizeField]
  by_cases hA : occursB (str "Address:") (pyStrip p) = true
  · rw [if_pos hA, if_pos hA]
    cases hg : reSearchValue (str "Address:") (pyStrip p) <;> simp [hg]
  · rw [if_neg hA, if_neg hA]
    by_cases hP : occursB (str "Phone:") (pyStrip p) = true
    · rw [if_pos hP, if_pos hP]
      cases hg : reSearchValue (str "Phone:") (pyStrip p) <;> simp [hg]
    · rw [if_neg hP, if_neg hP]
      by_cases hE : occursB (str "Email:") (pyStrip p) = true
      · rw [if_pos hE, if_pos hE]
        cases hg : reSearchValue (str "Email:") (pyStrip p) <;> simp [hg]
      · rw [if_neg hE, if_neg hE]

theorem recognizeField_some (p : List Char) (k v : List Char)
    (h : recognizeField p = some (k, v)) :
    ∃ lbl g, (lbl, k) ∈ fieldTable ∧ occursIn lbl (pyStrip p) ∧
      reSearchValue lbl (pyStrip p) = some g ∧ v = pyStrip g := by
  simp only [recognizeField] at h
  by_cases hA : occursB (str "Address:") (pyStrip p) = true
  · rw [if_pos hA] at h
    obtain ⟨g, hg, heq⟩ := Option.map_eq_some'.mp h
    obtain ⟨hk, hv⟩ := Prod.mk.injEq .. ▸ heq
    exact ⟨str "Address:", g, by simp [fieldTable, hk.symm], hA, hg, hv.symm⟩
  · rw [if_neg hA] at h
    by_cases hP : occursB (str "Phone:") (pyStrip p) = true
    · rw [if_pos hP] at h
      obtain ⟨g, hg, heq⟩ := Option.map_eq_some'.mp h
      obtain ⟨hk, hv⟩ := Prod.mk.injEq .. ▸ heq
      exact ⟨str "Phone:", g, by simp [fieldTable, hk.symm], hP, hg, hv.symm⟩
    · rw [if_neg hP] at h
      by_cases hE : occursB (str "Email:") (pyStrip p) = true
      · rw [if_pos hE] at h
        obtain ⟨g, hg, heq⟩ := Option.map_eq_some'.mp h
        obtain ⟨hk, hv⟩ := Prod.mk.injEq .. ▸ heq
        exact ⟨str "Email:", g, by simp [fieldTable, hk.symm], hE, hg, hv.symm⟩
      · rw [if_neg hE] at h
        cases h

theorem recognizeField_value_ne_nil (p k v : List Char)
    (h : recognizeField p = some (k, v)) : v ≠ [] := by
  obtain ⟨lbl, g, _, _, hg, hv⟩ := recognizeField_some p k v h
  rw [hv]
  exact reSearchValue_strip_ne_nil lbl (pyStrip p) g (pyStrip_getLast_not_ws p) hg

theorem recognizeField_key_mem (p k v : List Char)
    (h : recognizeField p = some (k, v)) : k ∈ threeKeys := by
  obtain ⟨lbl, g, hmem, _, _, _⟩ := recognizeField_some p k v h
  simp only [fieldTable, List.mem_cons, List.mem_singleton, Prod.mk.injEq,
    List.not_mem_nil, or_false] at hmem
  rcases hmem with ⟨_, hk⟩ | ⟨_, hk⟩ | ⟨_, hk⟩ <;> simp [threeKeys, hk.symm]

/-! Fold-level invariants of `get_modifications`. -/

theorem foldl_keys_sub (ps : List (List Char)) :
    ∀ (m0 : Mods), (∀ kv ∈ m0, kv.1 ∈ threeKeys) →
      ∀ kv ∈ ps.foldl processParagraph m0, kv.1 ∈ threeKeys := by
  induction ps with
  | nil =>
    intro m0 h kv hkv
    exact h kv hkv
  | cons p ps ih =>
    intro m0 h kv hkv
    rw [List.foldl_cons] at hkv
    refine ih (processParagraph m0 p) ?_ kv hkv
    intro kv' hkv'
    rw [processParagraph_eq] at hkv'
    cases hr : recognizeField p with
    | none =>
      rw [hr] at hkv'
      exact h kv' hkv'
    | some kv2 =>
      rw [hr] at hkv'
      rcases mem_dictInsert m0 kv2.1 kv2.2 kv' hkv' with heq | hm
      · rw [heq]
        exact recognizeField_key_mem p kv2.1 kv2.2 (by rw [hr])
      · exact h kv' hm

theorem nodup_foldl_keys (ps : List (List Char)) :
    ∀ (m0 : Mods), (m0.map Prod.fst).Nodup →
      ((ps.foldl processParagraph m0).map Prod.fst).Nodup := by
  induction ps with
  | nil =>
    intro m0 h
    exact h
  | cons p ps ih =>
    intro m0 h
    rw [List.foldl_cons]
    apply ih
    rw [processParagraph_eq]
    cases hr : recognizeField p with
    | none => exact h
    | some kv => exact keys_dictInsert_nodup m0 kv.1 kv.2 h

theorem dlookup_foldl_preserved (k v : List Char) :
    ∀ (rs : List (List Char)) (m1 : Mods),
      dlookup m1 k = some v →
      (∀ r ∈ rs, ∀ v', recognizeField r ≠ some (k, v')) →
      dlookup (rs.foldl processParagraph m1) k = some v := by
  intro rs
  induction rs with
  | nil =>
    intro m1 hb _
    exact hb
  | cons r rs ihr =>
    intro m1 hb hrs
    rw [List.foldl_cons]
    apply ihr
    · rw [processParagraph_eq]
      cases hr : recognizeField r with
      | none => exact hb
      | some kv2 =>
        have hne : kv2.1 ≠ k := by
          intro heq
          apply hrs r (by simp) kv2.2
          rw [hr, ← heq]
        rw [dlookup_dictInsert_other k kv2.1 kv2.2 hne m1]
        exact hb
    · intro r' hr' v' h'
      exact hrs r' (by simp [hr']) v' h'

theorem threeKeys_ne_lorem (k : List Char) (h : k ∈ threeKeys) : k ≠ LOREM := by
  simp only [threeKeys, List.mem_cons, List.mem_singleton, List.not_mem_nil, or_false] at h
  rcases h with rfl | rfl | rfl <;> decide

theorem get_modifications_keys (paragraphs : List (List Char)) :
    ∀ kv ∈ get_modifications paragraphs, kv.1 ∈ keyUniverse := by
  intro kv hkv
  have hsub := foldl_keys_sub paragraphs [] (by simp)
  have hthree : ∀ x ∈ threeKeys, x ∈ keyUniverse := by decide
  simp only [get_modifications] at hkv
  by_cases hc : (occursB SAMPLE_TEXT (List.intercalate (str " ") paragraphs) &&
      !occursB LOREM (List.intercalate (str " ") paragraphs)) = true
  · rw [if_pos hc] at hkv
    rcases mem_dictInsert _ _ _ kv hkv with heq | hm
    · rw [heq]
      decide
    · exact hthree kv.1 (hsub kv hm)
  · rw [if_neg hc] at hkv
    exact hthree kv.1 (hsub kv hkv)

theorem get_modifications_keys_nodup (paragraphs : List (List Char)) :
    ((get_modifications paragraphs).map Prod.fst).Nodup := by
  have h0 := nodup_foldl_keys paragraphs [] (by simp)
  simp only [get_modifications]
  by_cases hc : (occursB SAMPLE_TEXT (List.intercalate (str " ") paragraphs) &&
      !occursB LOREM (List.intercalate (str " ") paragraphs)) = true
  · rw [if_pos hc]
    exact keys_dictInsert_nodup _ _ _ h0
  · rw [if_neg hc]
    exact h0

theorem nodup_subset_length_le (l : List (List Char)) (hn : l.Nodup)
    (hs : ∀ x ∈ l, x ∈ keyUniverse) : l.length ≤ 4 := by
  have h1 : l.toFinset.card = l.length := List.toFinset_card_of_nodup hn
  have h2 : l.toFinset ⊆ keyUniverse.toFinset := by
    intro x hx
    rw [List.mem_toFinset] at hx ⊢
    exact hs x hx
  have h3 := Finset.card_le_card h2
  have h4 : keyUniverse.toFinset.card ≤ keyUniverse.length := List.toFinset_card_le _
  have h5 : keyUniverse.length = 4 := rfl
  omega

/-- C4 counterexample: the record "Home Address: 42 New Ave" does not begin
with any of the labels "Address:", "Phone:", "Email:", yet the builder
inserts the address mapping — recognition is by substring containment of
the label, not by prefix match. -/
theorem field_recognizer_counterexample :
    get_modifications [str "Home Address: 42 New Ave"] =
      [(ORIG_ADDRESS, str "42 New Ave")] ∧
    (str "Address:").isPrefixOf (pyStrip (str "Home Address: 42 New Ave")) = false ∧
    (str "Phone:").isPrefixOf (pyStrip (str "Home Address: 42 New Ave")) = false ∧
    (str "Email:").isPrefixOf (pyStrip (str "Home Address: 42 New Ave")) = false := by
  refine ⟨by decide, by decide, by decide, by decide⟩

/-- C4 amended: a paragraph record is recognized by substring containment
of a label anywhere in its trimmed text, with the fixed if/elif precedence
Address before Phone before Email, and each recognized record inserts the
mapping from that field's known original sample value to exactly the
trimmed regex capture, which is always non-empty; a record whose first
contained label yields no regex match, or that contains no label, leaves
the map unchanged.  The seven cases cover every input. -/
theorem field_recognizer_amended (m : Mods) (p : List Char) :
    (∀ g, occursIn (str "Address:") (pyStrip p) →
       reSearchValue (str "Address:") (pyStrip p) = some g →
       processParagraph m p = dictInsert m ORIG_ADDRESS (pyStrip g) ∧ pyStrip g ≠ []) ∧
    (occursIn (str "Address:") (pyStrip p) →
       reSearchValue (str "Address:") (pyStrip p) = none →
       processParagraph m p = m) ∧
    (∀ g, ¬ occursIn (str "Address:") (pyStrip p) →
       occursIn (str "Phone:") (pyStrip p) →
       reSearchValue (str "Phone:") (pyStrip p) = some g →
       processParagraph m p = dictInsert m ORIG_PHONE (pyStrip g) ∧ pyStrip g ≠ []) ∧
    (¬ occursIn (str "Address:") (pyStrip p) →
       occursIn (str "Phone:") (pyStrip p) →
       reSearchValue (str "Phone:") (pyStrip p) = none →
       processParagraph m p = m) ∧
    (∀ g, ¬ occursIn (str "Address:") (pyStrip p) →
       ¬ occursIn (str "Phone:") (pyStrip p) →
       occursIn (str "Email:") (pyStrip p) →
       reSearchValue (str "Email:") (pyStrip p) = some g →
       processParagraph m p = dictInsert m ORIG_EMAIL (pyStrip g) ∧ pyStrip g ≠ []) ∧
    (¬ occursIn (str "Address:") (pyStrip p) →
       ¬ occursIn (str "Phone:") (pyStrip p) →
       occursIn (str "Email:") (pyStrip p) →
       reSearchValue (str "Email:") (pyStrip p) = none →
       processParagraph m p = m) ∧
    (¬ occursIn (str "Address:") (pyStrip p) →
       ¬ occursIn (str "Phone:") (pyStrip p) →
       ¬ occursIn (str "Email:") (pyStrip p) →
       processParagraph m p = m) := by
  refine ⟨?_, ?_, ?_, ?_, ?_, ?_, ?_⟩
  · intro g hA hg
    refine ⟨?_, reSearchValue_strip_ne_nil (str "Address:") (pyStrip p) g
      (pyStrip_getLast_not_ws p) hg⟩
    simp only [processParagraph]
    rw [if_pos (show occursB (str "Address:") (pyStrip p) = true from hA), hg]
  · intro hA hg
    simp only [processParagraph]
    rw [if_pos (show occursB (str "Address:") (pyStrip p) = true from hA), hg]
  · intro g hA hP hg
    refine ⟨?_, reSearchValue_strip_ne_nil (str "Phone:") (pyStrip p) g
      (pyStrip_getLast_not_ws p) hg⟩
    simp only [processParagraph]
    rw [if_neg (show ¬ occursB (str "Address:") (pyStrip p) = true from hA),
        if_pos (show occursB (str "Phone:") (pyStrip p) = true from hP), hg]
  · intro hA hP hg
    simp only [processParagraph]
    rw [if_neg (show ¬ occursB (str "Address:") (pyStrip p) = true from hA),
        if_pos (show occursB (str "Phone:") (pyStrip p) = true from hP), hg]
  · intro g hA hP hE hg
    refine ⟨?_, reSearchValue_strip_ne_nil (str "Email:") (pyStrip p) g
      (pyStrip_getLast_not_ws p) hg⟩
    simp only [processParagraph]
    rw [if_neg (show ¬ occursB (str "Address:") (pyStrip p) = true from hA),
        if_neg (show ¬ occursB (str "Phone:") (pyStrip p) = true from hP),
        if_pos (show occursB (str "Email:") (pyStrip p) = true from hE), hg]
  · intro hA hP hE hg
    simp only [processParagraph]
    rw [if_neg (show ¬ occursB (str "Address:") (pyStrip p) = true from hA),
        if_neg (show ¬ occursB (str "Phone:") (pyStrip p) = true from hP),
        if_pos (show occursB (str "Email:") (pyStrip p) = true from hE), hg]
  · intro hA hP hE
    simp only [processParagraph]
    rw [if_neg (show ¬ occursB (str "Address:") (pyStrip p) = true from hA),
        if_neg (show ¬ occursB (str "Phone:") (pyStrip p) = true from hP),
        if_neg (show ¬ occursB (str "Email:") (pyStrip p) = true from hE)]

/-- Witness for the amended C4: a phone record (containing no address
label) inserts the phone mapping with exactly its trimmed captured value. -/
theorem field_recognizer_amended_witness :
    processParagraph [] (str "Phone: 321-9876") =
      dictInsert [] ORIG_PHONE (pyStrip (str "321-9876")) :=
  ((field_recognizer_amended [] (str "Phone: 321-9876")).2.2.1 (str "321-9876")
    (by decide) (by decide) (by decide)).1

/-- C8: the built ModificationMap contains the mapping
"Lorem ipsum" -> "Sample text" iff the substitute phrase occurs in the
space-joined text of the edited document while the placeholder phrase does
not occur in it. -/
theorem lorem_mapping_iff (paragraphs : List (List Char)) :
    (LOREM, SAMPLE_TEXT) ∈ get_modifications paragraphs ↔
      (occursIn SAMPLE_TEXT (List.intercalate (str " ") paragraphs) ∧
       ¬ occursIn LOREM (List.intercalate (str " ") paragraphs)) := by
  have hLnot : ∀ kv ∈ paragraphs.foldl processParagraph [], kv.1 ≠ LOREM := by
    intro kv hkv
    exact threeKeys_ne_lorem kv.1 (foldl_keys_sub paragraphs [] (by simp) kv hkv)
  simp only [get_modifications]
  by_cases hc : (occursB SAMPLE_TEXT (List.intercalate (str " ") paragraphs) &&
      !occursB LOREM (List.intercalate (str " ") paragraphs)) = true
  · rw [if_pos hc]
    rw [Bool.and_eq_true, Bool.not_eq_true'] at hc
    constructor
    · intro _
      exact ⟨hc.1, fun h => (Bool.eq_false_iff.mp hc.2) h⟩
    · intro _
      rw [dictInsert_of_fresh _ _ _ hLnot]
      exact List.mem_append_right _ (List.mem_singleton.mpr rfl)
  · rw [if_neg hc]
    constructor
    · intro hmem
      exact absurd rfl (hLnot (LOREM, SAMPLE_TEXT) hmem)
    · rintro ⟨h1, h2⟩
      exfalso
      apply hc
      rw [Bool.and_eq_true, Bool.not_eq_true']
      exact ⟨h1, Bool.eq_false_iff.mpr h2⟩

/-- Witness for C8: a document containing "Sample text" but not
"Lorem ipsum" gets the placeholder mapping. -/
theorem lorem_mapping_iff_witness :
    (LOREM, SAMPLE_TEXT) ∈ get_modifications [str "now Sample text here"] :=
  (lorem_mapping_iff [str "now Sample text here"]).mpr (by decide)

/-- C10: every key of the built ModificationMap is one of the four fixed
original strings, the map never holds more than four entries, and when the
paragraph list ends (for a given field) with a last record recognizing that
field, the value of that last record is the one retained. -/
theorem modification_map_invariants (paragraphs : List (List Char)) :
    (∀ kv ∈ get_modifications paragraphs, kv.1 ∈ keyUniverse) ∧
    (get_modifications paragraphs).length ≤ 4 ∧
    (∀ ps q rs k v, paragraphs = ps ++ q :: rs →
       recognizeField q = some (k, v) →
       (∀ r ∈ rs, ∀ v', recognizeField r ≠ some (k, v')) →
       dlookup (get_modifications paragraphs) k = some v) := by
  refine ⟨get_modifications_keys paragraphs, ?_, ?_⟩
  · have hn := get_modifications_keys_nodup paragraphs
    have hs : ∀ x ∈ (get_modifications paragraphs).map Prod.fst, x ∈ keyUniverse := by
      intro x hx
      obtain ⟨kv, hkv, rfl⟩ := List.mem_map.mp hx
      exact get_modifications_keys paragraphs kv hkv
    have hlen := nodup_subset_length_le _ hn hs
    rw [List.length_map] at hlen
    exact hlen
  · intro ps q rs k v hpar hq hrs
    have hk3 : k ∈ threeKeys := recognizeField_key_mem q k v hq
    have hkL : k ≠ LOREM := threeKeys_ne_lorem k hk3
    have hfold : dlookup (paragraphs.foldl processParagraph []) k = some v := by
      rw [hpar, List.foldl_append, List.foldl_cons]
      have hbase : dlookup (processParagraph (ps.foldl processParagraph []) q) k = some v := by
        rw [processParagraph_eq, hq]
        exact dlookup_dictInsert_self _ k v
      exact dlookup_foldl_preserved k v rs _ hbase hrs
    simp only [get_modifications]
    by_cases hc : (occursB SAMPLE_TEXT (List.intercalate (str " ") paragraphs) &&
        !occursB LOREM (List.intercalate (str " ") paragraphs)) = true
    · rw [if_pos hc]
      rw [dlookup_dictInsert_other k LOREM SAMPLE_TEXT (fun h => hkL h.symm)]
      exact hfold
    · rw [if_neg hc]
      exact hfold

/-- Witness for C10: with two phone records, the value of the later record
is the one retained. -/
theorem modification_map_invariants_witness :
    dlookup (get_modifications [str "Phone: 111-2222", str "Phone: 333-4444"]) ORIG_PHONE =
      some (str "333-4444") :=
  (modification_map_invariants [str "Phone: 111-2222", str "Phone: 333-4444"]).2.2
    [str "Phone: 111-2222"] (str "Phone: 333-4444") [] ORIG_PHONE (str "333-4444")
    rfl (by decide) (by simp)
